import Mathlib

/-!
Verification of `fairtest/modules/statistics/multiple_testing.py`.

Shallow embedding conventions:

* Python floats are modelled as exact rationals (`ℚ`); the float literal
  `1e-180` becomes the rational `1 / 10 ^ 180`.
* A pandas `DataFrame` is modelled by `FT.Table`: a list of numeric rows
  together with its row labels (`index`) and column labels (`cols`).
* A Python `dict` is modelled as an association list carried in its
  iteration order; `dict.iteritems()` / `dict.values()` walk that list in
  order, a dict comprehension produces its entries in the order of the
  generator it iterates, and assignment to an existing key replaces the
  value in place (preserving the key's position).
* Code that can raise (`contexts[0]` on an empty list, `stat[-1]` on an
  empty row, float division by zero, `pd.concat` on non-frames,
  `np.array_split` into zero sections, out-of-range indexing) is modelled
  in the `Option` monad, `none` standing for a raised exception.
* `statsmodels.multipletests(..., method='holm')` is embedded by
  `FT.holm_corrected`, its corrected p-values only: the `alpha` argument
  influences just the rejection flags, which `compute_all_stats` discards.
-/

namespace FT

set_option maxRecDepth 100000

attribute [local semireducible] Rat.mul Rat.inv Rat.add Rat.sub

/-- A labeled numeric table (a pandas `DataFrame`): the rows of values, the
row labels and the column labels.  The last column of a stat table is its
p-value column. -/
structure Table where
  values : List (List ℚ)
  index : List String
  cols : List String
deriving DecidableEq, Repr

/-- The `.stats` payload of a metric's compute result: a flat numeric row
ending in a p-value, or a labeled table whose last column holds p-values. -/
inductive Stats where
  | row (r : List ℚ)
  | table (t : Table)
deriving DecidableEq, Repr

/-- A statistical metric.  `stats` is the reference shape oracle on the
metric instance (`metric.stats` in the source): `some` table for
regression-style (tabular) metrics, `none` for scalar ones.  `compute` is
the opaque statistic-producing operation `metric.compute(data, level,
exact)`, whose result's `.stats` field is returned directly. -/
structure Metric where
  stats : Option Table
  compute : Nat → ℚ → Bool → Stats

/-- One subpopulation slice: its (opaque) data and its metric. -/
structure Context where
  data : Nat
  metric : Metric

/-- One investigation: its `contexts` mapping from protected-attribute name
to context list, carried in the dict's iteration order. -/
structure Investigation where
  contexts : List (String × List Context)

/-- Association-list read, `d[k]` on a modelled dict (`none` = `KeyError`);
also models gather-by-index on arrays. -/
def lookupA [DecidableEq κ] (k : κ) : List (κ × α) → Option α
  | [] => none
  | p :: rest => if p.1 = k then some p.2 else lookupA k rest

/-- Association-list write to an existing key, `d[k] = v` on a modelled
dict: replaces the value in place, preserving iteration order.  (On a
missing key it is the identity; every write in the source is preceded by a
read of the same key, so that case is unreachable there.) -/
def updateA [DecidableEq κ] (k : κ) (v : α) : List (κ × α) → List (κ × α)
  | [] => []
  | p :: rest => if p.1 = k then (p.1, v) :: rest else p :: updateA k v rest

/-- The float literal `1e-180`, the numerical floor applied to p-values. -/
def pfloor : ℚ := 1 / 10 ^ 180

/-- Lexicographic comparison of char lists by code point. -/
def charsLe : List Char → List Char → Bool
  | [], _ => true
  | _ :: _, [] => false
  | a :: as, b :: bs =>
    if a.toNat < b.toNat then true
    else if b.toNat < a.toNat then false
    else charsLe as bs

/-- Python's lexicographic string comparison (by code point). -/
def strLe (a b : String) : Bool := charsLe a.data b.data

/-- `sorted(inv.contexts.iteritems())`: the contexts mapping sorted by key
(keys of a dict are distinct, so the tuple comparison sorts by key; the
sort is stable, though with distinct keys stability is immaterial). -/
def sortedContexts (inv : Investigation) : List (String × List Context) :=
  inv.contexts.insertionSort (fun a b => strLe a.1 b.1 = true)

/-- The loop body of `num_hypotheses`: walks the context lists carrying the
running total `tot`.  `contexts[0]` on an empty context list raises, hence
the `Option`. -/
def num_hyp_go : ℕ → List (String × List Context) → Option ℕ
  | tot, [] => some tot
  | tot, p :: rest =>
    match p.2.head? with
    | none => none
    | some c0 =>
      match c0.metric.stats with
      | some ref => num_hyp_go (tot + p.2.length * ref.values.length) rest
      | none => num_hyp_go (tot + p.2.length) rest

/-- `num_hypotheses(inv)`: counts the hypotheses of one investigation, one
per context for scalar metrics and one per reference-table row per context
for tabular metrics. -/
def num_hypotheses (inv : Investigation) : Option ℕ :=
  num_hyp_go 0 inv.contexts

/-- `sum([num_hypotheses(inv) for inv in investigations])`. -/
def total_hypotheses (invs : List Investigation) : Option ℕ :=
  (invs.mapM num_hypotheses).map List.sum

/-- `adj_level = 1 - (1 - level) / total_hypotheses` (Bonferroni). -/
def adj_level (level : ℚ) (t : ℕ) : ℚ :=
  1 - (1 - level) / (t : ℚ)

/-- The result dictionary of `compute_stats`: the stat rows, plus row/column
labels when the metric is tabular (empty lists model the absent keys). -/
structure CSResult where
  stats : List (List ℚ)
  index : List String
  cols : List String
deriving DecidableEq, Repr

/-- Projection of a compute result onto a table (`pd.concat` raises on
anything that is not a frame). -/
def Stats.toTable? : Stats → Option Table
  | .table t => some t
  | .row _ => none

/-- Projection of a compute result onto a flat row. -/
def Stats.toRow? : Stats → Option (List ℚ)
  | .row r => some r
  | .table _ => none

/-- `compute_stats(contexts, exact, level)`: computes each context's metric
on its own data at the given level, in input order.  For a tabular
representative metric the per-context tables are concatenated row-wise
(`pd.concat`), remembering the concatenated row labels and the (shared)
column labels; for a scalar one the list of per-context rows is returned
unchanged. -/
def compute_stats (contexts : List Context) (exact : Bool) (level : ℚ) :
    Option CSResult :=
  match contexts.head? with
  | none => none
  | some c0 =>
    let stats := contexts.map (fun c => c.metric.compute c.data level exact)
    match c0.metric.stats with
    | some _ =>
      match stats.mapM Stats.toTable? with
      | none => none
      | some tables =>
        some { stats := (tables.map Table.values).flatten
               index := (tables.map Table.index).flatten
               cols := ((tables.head?.map Table.cols).getD []) }
    | none =>
      match stats.mapM Stats.toRow? with
      | none => none
      | some rows => some { stats := rows, index := [], cols := [] }

/-- The representative metric's reference table of a context group:
`contexts[0].metric.stats` (none when the group is scalar or empty). -/
def rep_ref : List Context → Option Table
  | [] => none
  | c :: _ => c.metric.stats

/-- Step 3 of the orchestrator: for every investigation, for every protected
attribute in sorted key order, run `compute_stats` at the given level.  The
inner dict comprehension iterates `sorted(inv.contexts.iteritems())`, so the
resulting dict's iteration order is the sorted key order. -/
def all_stats_pass (invs : List Investigation) (exact : Bool) (lvl : ℚ) :
    Option (List (List (String × CSResult))) :=
  invs.mapM (fun inv =>
    (sortedContexts inv).mapM (fun p =>
      (compute_stats p.2 exact lvl).map (fun r => (p.1, r))))

/-- `max(stat[-1], 1e-180)`: the last field of a stat row, floored at
`1e-180` (`stat[-1]` on an empty row raises). -/
def clamp_last (row : List ℚ) : Option ℚ :=
  row.getLast?.map (fun q => max q pfloor)

/-- Step 4: the flattened p-value collection, walking the stats structure in
its own (dict) iteration order — investigation by investigation, attribute
entry by attribute entry, stat row by stat row. -/
def flatten_pvals (allStats : List (List (String × CSResult))) :
    Option (List ℚ) :=
  (allStats.mapM (fun (invStats : List (String × CSResult)) =>
    (invStats.mapM (fun (p : String × CSResult) =>
      p.2.stats.mapM clamp_last)).map List.flatten)).map
    List.flatten

/-- Running maximum with a seed (`np.maximum.accumulate` after the head). -/
def cummaxFrom (m : ℚ) : List ℚ → List ℚ
  | [] => []
  | q :: qs => max m q :: cummaxFrom (max m q) qs

/-- `np.maximum.accumulate`. -/
def cummax : List ℚ → List ℚ
  | [] => []
  | q :: qs => q :: cummaxFrom q qs

/-- `multipletests(pvals, alpha, method='holm')`, corrected p-values only:
sort ascending, multiply the j-th smallest (0-based) by `n - j`, take the
running maximum, clip at 1, and scatter the results back to the original
positions (`pvals_corrected[sortind] = ...`). -/
def holm_corrected (pvals : List ℚ) : List ℚ :=
  let n := pvals.length
  let sortd := pvals.enum.insertionSort (fun a b => a.2 ≤ b.2)
  let raw := sortd.enum.map (fun jp => (jp.2.1, jp.2.2 * ((n - jp.1 : ℕ) : ℚ)))
  let corr := (raw.map Prod.fst).zip
    ((cummax (raw.map Prod.snd)).map (fun q => min q 1))
  (List.range n).map (fun i => (lookupA i corr).getD 0)

/-- The sorted (index, p-value) sequence inside `holm_corrected` (the first
`let`), named for the proofs below. -/
def holm_sortd (pvals : List ℚ) : List (ℕ × ℚ) :=
  pvals.enum.insertionSort (fun a b => a.2 ≤ b.2)

/-- The (original index, p-value × multiplier) sequence inside
`holm_corrected` (the second `let`), named for the proofs below. -/
def holm_raw (pvals : List ℚ) : List (ℕ × ℚ) :=
  (holm_sortd pvals).enum.map
    (fun jp => (jp.2.1, jp.2.2 * ((pvals.length - jp.1 : ℕ) : ℚ)))

/-- The (original index, corrected value) sequence inside `holm_corrected`
(the third `let`), named for the proofs below. -/
def holm_corr (pvals : List ℚ) : List (ℕ × ℚ) :=
  ((holm_raw pvals).map Prod.fst).zip
    ((cummax ((holm_raw pvals).map Prod.snd)).map (fun q => min q 1))

/-- `np.append(old_stats[0:-1], q)`: replace the last field of a stat row
(on an empty row `old_stats[0:-1]` is empty and the result is `[q]`). -/
def scatter_row (row : List ℚ) (q : ℚ) : List ℚ :=
  row.dropLast ++ [q]

/-- The inner scatter loop over one attribute's stat rows: row `i` receives
`pvals_corr[idx + i]` as its new last field (out-of-range indexing into the
corrected array raises). -/
def scatter_rows (rows : List (List ℚ)) (corr : List ℚ) (idx : ℕ) :
    Option (List (List ℚ)) :=
  rows.enum.mapM (fun p => (corr.get? (idx + p.1)).map (scatter_row p.2))

/-- The scatter loop over one investigation's protected attributes: walks
`inv.contexts.iteritems()` in the mapping's own iteration order, consuming
corrected p-values strictly in order and writing them back into the stats
dict entry of each attribute. -/
def scatter_groups (corr : List ℚ) :
    List (String × List Context) → List (String × CSResult) → ℕ →
    Option (List (String × CSResult) × ℕ)
  | [], st, idx => some (st, idx)
  | p :: rest, st, idx =>
    match lookupA p.1 st with
    | none => none
    | some r =>
      match scatter_rows r.stats corr idx with
      | none => none
      | some newRows =>
        scatter_groups corr rest (updateA p.1 { r with stats := newRows } st)
          (idx + r.stats.length)

/-- Step 6: the scatter pass over all investigations, threading the global
position `idx` into the corrected p-value array. -/
def scatter_invs (corr : List ℚ) :
    List (Investigation × List (String × CSResult)) → ℕ →
    Option (List (List (String × CSResult)))
  | [], _ => some []
  | p :: rest, idx =>
    match scatter_groups corr p.1.contexts p.2 idx with
    | none => none
    | some (st, idx2) =>
      match scatter_invs corr rest idx2 with
      | none => none
      | some rests => some (st :: rests)

/-- A stats dict entry during the reassembly pass: still the raw
`compute_stats` dictionary, or already replaced by the list of per-context
sub-tables. -/
inductive Entry where
  | cs (r : CSResult)
  | reshaped (ts : List Table)
deriving DecidableEq, Repr

/-- The section sizes of `np.array_split(_, k)` on `l` rows: the first
`l % k` sections get `l / k + 1` rows, the remaining ones `l / k`. -/
def splitSizes (l k : ℕ) : List ℕ :=
  (List.range k).map (fun i => if i < l % k then l / k + 1 else l / k)

/-- Cut a list into consecutive chunks of the given sizes. -/
def takeDropChunks : List α → List ℕ → List (List α)
  | _, [] => []
  | xs, n :: ns => xs.take n :: takeDropChunks (xs.drop n) ns

/-- `np.array_split(df, k)` on a modelled DataFrame: splits the rows and the
row labels into `k` consecutive sections, keeping the column labels
(`k = 0` raises). -/
def array_split_table (t : Table) (k : ℕ) : Option (List Table) :=
  if k = 0 then none
  else
    let sizes := splitSizes t.values.length k
    some (((takeDropChunks t.values sizes).zip
      (takeDropChunks t.index sizes)).map
        (fun p => { values := p.1, index := p.2, cols := t.cols }))

/-- Step 7 for one investigation: for every tabular protected attribute,
re-form the DataFrame from the accumulated stats, labels and columns, and
split it back into `len(res) / len(metric.stats)` per-context sub-tables
(Python 2 integer division; a zero-row reference table raises). -/
def reshape_groups : List (String × List Context) → List (String × Entry) →
    Option (List (String × Entry))
  | [], st => some st
  | p :: rest, st =>
    match p.2.head? with
    | none => none
    | some c0 =>
      match c0.metric.stats with
      | none => reshape_groups rest st
      | some ref =>
        match lookupA p.1 st with
        | none => none
        | some (.reshaped _) => none
        | some (.cs r) =>
          if ref.values.length = 0 then none
          else
            match array_split_table
                { values := r.stats, index := r.index, cols := r.cols }
                (r.stats.length / ref.values.length) with
            | none => none
            | some ts => reshape_groups rest (updateA p.1 (.reshaped ts) st)

/-- One leaf of the final output: a list of per-context stat rows (scalar
metrics) or a list of per-context sub-tables (tabular metrics). -/
inductive FinalEntry where
  | rows (rs : List (List ℚ))
  | tables (ts : List Table)
deriving DecidableEq, Repr

/-- Step 8's extraction of each entry's `'stats'` field. -/
def strip_entry : Entry → FinalEntry
  | .cs r => .rows r.stats
  | .reshaped ts => .tables ts

/-- Steps 4–8 of the orchestrator, after the Bonferroni-adjusted stats pass:
flatten the p-values, Holm-correct them (the `alpha = 1 - level` argument of
`multipletests` only affects the discarded rejection flags), scatter them
back, reshape the tabular entries and extract the final `'stats'` leaves. -/
def correction_pipeline (invs : List Investigation) (level : ℚ)
    (pass : Option (List (List (String × CSResult)))) :
    Option (List (List (String × FinalEntry))) :=
  match pass with
  | none => none
  | some allStats =>
    match flatten_pvals allStats with
    | none => none
    | some allPvals =>
      let corr := holm_corrected allPvals
      match scatter_invs corr (invs.zip allStats) 0 with
      | none => none
      | some scattered =>
        match (invs.zip scattered).mapM (fun p =>
            reshape_groups p.1.contexts
              (p.2.map (fun q => (q.1, Entry.cs q.2)))) with
        | none => none
        | some reshaped =>
          some (reshaped.map (fun l =>
            l.map (fun q => (q.1, strip_entry q.2))))

/-- `compute_all_stats(investigations, exact, level)`: count the hypotheses,
Bonferroni-adjust the confidence level (a total count of zero makes the
adjustment a division by zero, which raises), compute all statistics at the
adjusted level, and run the Holm correction pipeline. -/
def compute_all_stats (invs : List Investigation) (exact : Bool)
    (level : ℚ) : Option (List (List (String × FinalEntry))) :=
  match total_hypotheses invs with
  | none => none
  | some t =>
    if t = 0 then none
    else correction_pipeline invs level
      (all_stats_pass invs exact (adj_level level t))

/-- The hypothesis count one protected-attribute group contributes, as the
spec states it: `#contexts × #rows(reference table)` for a tabular
representative metric, `#contexts` otherwise. -/
def group_count (p : String × List Context) : ℕ :=
  match rep_ref p.2 with
  | some t => p.2.length * t.values.length
  | none => p.2.length

/-- Well-formedness of one context's compute result at level `lvl` relative
to the representative reference shape `ref`: the result's shape matches the
representative's, a tabular result has the reference table's row count and
one row label per row, and every stat row is non-empty (it ends in its
p-value, per the data-model invariant). -/
def ctx_result_ok (exact : Bool) (lvl : ℚ) (ref : Option Table)
    (c : Context) : Prop :=
  match ref, c.metric.compute c.data lvl exact with
  | some t, .table tc =>
    tc.values.length = t.values.length ∧
    tc.index.length = tc.values.length ∧ ∀ row ∈ tc.values, row ≠ []
  | some _, .row _ => False
  | none, .row r => r ≠ []
  | none, .table _ => False

/-- Well-formed investigation input for a run at level `lvl`: every
protected attribute has a non-empty context list all of whose computes
match the representative shape. -/
def inv_ok (exact : Bool) (lvl : ℚ) (inv : Investigation) : Prop :=
  ∀ p ∈ inv.contexts, p.2 ≠ [] ∧
    ∀ c ∈ p.2, ctx_result_ok exact lvl (rep_ref p.2) c

/-- A scalar metric whose compute always returns the single-field row
`[p]`. -/
def scalarMetric (p : ℚ) : Metric := ⟨none, fun _ _ _ => .row [p]⟩

/-- A context carrying `scalarMetric p`. -/
def scalarCtx (p : ℚ) : Context := ⟨0, scalarMetric p⟩

/-- An investigation whose contexts dict iterates `"b"` before `"a"`: its
keys are not stored in sorted order.  `b`'s single context has raw p-value
`0.04`, `a`'s has `0.01`. -/
def invBA : Investigation :=
  ⟨[("b", [scalarCtx (1/25)]), ("a", [scalarCtx (1/100)])]⟩

/-- A two-row reference table (the shape oracle; only its row count is
consulted). -/
def refT : Table := ⟨[[0, 0], [0, 0]], ["x", "y"], ["effect", "pval"]⟩

/-- A tabular compute result with effect fields `a`, `b` and p-values
`0.03`, `0.02`. -/
def tabT (a b : ℚ) : Table :=
  ⟨[[a, 3/100], [b, 2/100]], ["r1", "r2"], ["effect", "pval"]⟩

/-- A tabular (regression-style) metric: reference shape `refT`, computing
`tabT a b`. -/
def tabMetric (a b : ℚ) : Metric := ⟨some refT, fun _ _ _ => .table (tabT a b)⟩

/-- Two contexts sharing the tabular metric shape. -/
def ctxsTab : List Context := [⟨0, tabMetric 1 2⟩, ⟨0, tabMetric 3 4⟩]

/-- One investigation with a single tabular attribute of two contexts — the
spec's "2 contexts × 2-row reference table" scenario. -/
def invTab : Investigation := ⟨[("t", ctxsTab)]⟩

/-- One investigation with one scalar attribute of three contexts with raw
p-values `0.01`, `0.02`, `0.03` — the spec's Holm scenario. -/
def inv3 : Investigation :=
  ⟨[("s", [scalarCtx (1/100), scalarCtx (2/100), scalarCtx (3/100)])]⟩

/-! ### Generic lemmas about the modelling combinators -/

/-- `List.mapM` over `Option`, nil equation. -/
theorem mapM_opt_nil {α β : Type} (f : α → Option β) :
    ([] : List α).mapM f = some [] := rfl

/-- `List.mapM` over `Option`, cons equation. -/
theorem mapM_opt_cons {α β : Type} (f : α → Option β) (a : α) (l : List α) :
    (a :: l).mapM f =
      (f a).bind (fun b => (l.mapM f).bind (fun bs => some (b :: bs))) := by
  simp only [List.mapM_cons]
  rfl

/-- Constructive success of `List.mapM` over `Option`. -/
theorem mapM_some {α β : Type} {P : α → β → Prop} :
    ∀ (l : List α) (f : α → Option β),
      (∀ a ∈ l, ∃ b, f a = some b ∧ P a b) →
      ∃ l2, l.mapM f = some l2 ∧ List.Forall₂ P l l2
  | [], _, _ => ⟨[], rfl, List.Forall₂.nil⟩
  | a :: l, f, h => by
    obtain ⟨b, hb, hPb⟩ := h a (by simp)
    obtain ⟨l2, hl2, hP⟩ := mapM_some l f (fun x hx => h x (by simp [hx]))
    refine ⟨b :: l2, ?_, List.Forall₂.cons hPb hP⟩
    simp only [mapM_opt_cons, hb, hl2, Option.some_bind]

/-- Inversion of a successful `List.mapM` over `Option`. -/
theorem mapM_inv {α β : Type} :
    ∀ {l : List α} {l2 : List β} {f : α → Option β},
      l.mapM f = some l2 → List.Forall₂ (fun a b => f a = some b) l l2 := by
  intro l
  induction l with
  | nil =>
    intro l2 f h
    rw [mapM_opt_nil] at h
    cases h
    exact List.Forall₂.nil
  | cons a l ih =>
    intro l2 f h
    rw [mapM_opt_cons] at h
    cases hb : f a with
    | none => rw [hb] at h; simp at h
    | some b =>
      rw [hb] at h
      cases hl : l.mapM f with
      | none => rw [hl] at h; simp at h
      | some bs =>
        rw [hl] at h
        simp only [Option.some_bind, Option.some_inj] at h
        subst h
        exact List.Forall₂.cons hb (ih hl)

/-- A pointwise witness on the right of a `Forall₂`. -/
theorem forall₂_mem_right {α β : Type} {R : α → β → Prop} :
    ∀ {l : List α} {l2 : List β}, List.Forall₂ R l l2 →
      ∀ b ∈ l2, ∃ a ∈ l, R a b := by
  intro l l2 h
  induction h with
  | nil => intro b hb; simp at hb
  | cons hR _ ih =>
    intro b hb
    rcases List.mem_cons.mp hb with hb | hb
    · subst hb; exact ⟨_, by simp, hR⟩
    · obtain ⟨a, ha, hr⟩ := ih b hb
      exact ⟨a, by simp [ha], hr⟩

/-- A successful `lookupA` returns a stored pair. -/
theorem lookupA_mem {κ α : Type} [DecidableEq κ] {k : κ} {v : α} :
    ∀ {l : List (κ × α)}, lookupA k l = some v → (k, v) ∈ l := by
  intro l
  induction l with
  | nil => intro h; simp [lookupA] at h
  | cons p rest ih =>
    obtain ⟨pk, pv⟩ := p
    intro h
    by_cases hk : pk = k
    · subst hk
      simp [lookupA] at h
      subst h
      exact List.mem_cons_self _ _
    · simp [lookupA, hk] at h
      exact List.mem_cons_of_mem _ (ih h)

/-- With distinct keys, every stored pair is found by `lookupA`. -/
theorem mem_lookupA {κ α : Type} [DecidableEq κ] {k : κ} {v : α} :
    ∀ {l : List (κ × α)}, (l.map Prod.fst).Nodup → (k, v) ∈ l →
      lookupA k l = some v := by
  intro l
  induction l with
  | nil => intro _ hm; simp at hm
  | cons p rest ih =>
    obtain ⟨pk, pv⟩ := p
    intro hnd hm
    simp only [List.map_cons, List.nodup_cons] at hnd
    rcases List.mem_cons.mp hm with hm | hm
    · cases hm
      simp [lookupA]
    · have hk : pk ≠ k := by
        intro hkk
        subst hkk
        exact hnd.1 (List.mem_map.mpr ⟨(pk, v), hm, rfl⟩)
      simp only [lookupA, hk, if_false]
      exact ih hnd.2 hm

/-- `updateA` preserves the key sequence. -/
theorem updateA_map_fst {κ α : Type} [DecidableEq κ] (k : κ) (v : α) :
    ∀ l : List (κ × α), (updateA k v l).map Prod.fst = l.map Prod.fst := by
  intro l
  induction l with
  | nil => rfl
  | cons p rest ih =>
    obtain ⟨pk, pv⟩ := p
    by_cases hk : pk = k
    · simp [updateA, hk]
    · simp [updateA, hk, ih]

/-- `updateA` at one key does not disturb reads of another. -/
theorem lookupA_updateA_ne {κ α : Type} [DecidableEq κ] {k k2 : κ}
    (v : α) (h : k2 ≠ k) :
    ∀ l : List (κ × α), lookupA k2 (updateA k v l) = lookupA k2 l := by
  intro l
  induction l with
  | nil => rfl
  | cons p rest ih =>
    obtain ⟨pk, pv⟩ := p
    by_cases hk : pk = k
    · subst hk
      have hne : pk ≠ k2 := fun e => h e.symm
      simp [updateA, lookupA, hne]
    · by_cases hk2 : pk = k2
      · simp [updateA, lookupA, hk, hk2, h]
      · simp [updateA, lookupA, hk, hk2, ih]

/-- `updateA` at a present key makes `lookupA` return the new value. -/
theorem lookupA_updateA_eq {κ α : Type} [DecidableEq κ] {k : κ} (v : α) :
    ∀ {l : List (κ × α)} {w : α}, lookupA k l = some w →
      lookupA k (updateA k v l) = some v := by
  intro l
  induction l with
  | nil => intro w h; simp [lookupA] at h
  | cons p rest ih =>
    obtain ⟨pk, pv⟩ := p
    intro w h
    by_cases hk : pk = k
    · subst hk
      simp [updateA, lookupA]
    · simp only [lookupA, hk, if_false] at h
      simp only [updateA, hk, if_false, lookupA]
      exact ih h

/-! ### Claim theorems -/

/-- Claim C8: with a total hypothesis count of zero, `compute_all_stats`
fails (the Bonferroni adjustment `1 - (1 - level) / 0` is a division by
zero and raises) instead of silently returning an empty output. -/
theorem compute_all_stats_fails_on_zero_hypotheses
    (invs : List Investigation) (exact : Bool) (level : ℚ)
    (h : total_hypotheses invs = some 0) :
    compute_all_stats invs exact level = none := by
  simp [compute_all_stats, h]

/-- Witness for C8: the batch with no investigations has zero hypotheses in
total, and the call on it fails. -/
theorem compute_all_stats_fails_on_zero_hypotheses_w :
    total_hypotheses [] = some 0 ∧ compute_all_stats [] true (19/20) = none :=
  ⟨by decide,
    compute_all_stats_fails_on_zero_hypotheses [] true (19/20) (by decide)⟩

/-- Claim C10: for `0 < level < 1` and a total count `t ≥ 1`, the
Bonferroni-adjusted level that `compute_all_stats` forwards to every metric
computation satisfies `level ≤ adj_level level t < 1`, with equality on the
left exactly when `t = 1`. -/
theorem adj_level_bounds (level : ℚ) (t : ℕ) (h0 : 0 < level)
    (h1 : level < 1) (ht : 1 ≤ t) :
    level ≤ adj_level level t ∧ adj_level level t < 1 ∧
      (adj_level level t = level ↔ t = 1) := by
  have he : (0 : ℚ) < 1 - level := by linarith
  have htq : (1 : ℚ) ≤ (t : ℚ) := by exact_mod_cast ht
  have htpos : (0 : ℚ) < (t : ℚ) := by linarith
  refine ⟨?_, ?_, ?_, ?_⟩
  · have hd : (1 - level) / t ≤ 1 - level := div_le_self (le_of_lt he) htq
    simp only [adj_level]
    linarith
  · have hd : 0 < (1 - level) / t := div_pos he htpos
    simp only [adj_level]
    linarith
  · intro h
    simp only [adj_level] at h
    have hdiv : (1 - level) / t = 1 - level := by linarith
    have h3 : 1 - level = (1 - level) * t :=
      (div_eq_iff (ne_of_gt htpos)).mp hdiv
    have h5 : (1 - level) * 1 = (1 - level) * (t : ℚ) := by linarith
    have h6 : (1 : ℚ) = (t : ℚ) := mul_left_cancel₀ (ne_of_gt he) h5
    exact (Nat.cast_inj.mp h6.symm)
  · intro h
    subst h
    simp [adj_level]

/-- Witness for C10: `level = 0.95`, `t = 2`. -/
theorem adj_level_bounds_w :
    (0 : ℚ) < 19/20 ∧ (19/20 : ℚ) < 1 ∧ (1 ≤ 2) ∧
      ((19/20 : ℚ) ≤ adj_level (19/20) 2 ∧ adj_level (19/20) 2 < 1 ∧
        (adj_level (19/20) 2 = 19/20 ↔ 2 = 1)) :=
  ⟨by norm_num, by norm_num, by norm_num,
    adj_level_bounds (19/20) 2 (by norm_num) (by norm_num) (by norm_num)⟩

/-- The loop of `num_hypotheses` computes the spec's per-attribute sum. -/
theorem num_hyp_go_eq (l : List (String × List Context)) :
    ∀ tot : ℕ, (∀ p ∈ l, p.2 ≠ []) →
      num_hyp_go tot l = some (tot + (l.map group_count).sum) := by
  induction l with
  | nil => intro tot _; simp [num_hyp_go]
  | cons p l ih =>
    intro tot h
    have hp : p.2 ≠ [] := h p (List.mem_cons_self p l)
    obtain ⟨c0, rest, hc⟩ := List.exists_cons_of_ne_nil hp
    have hrest : ∀ q ∈ l, q.2 ≠ [] :=
      fun q hq => h q (List.mem_cons_of_mem p hq)
    cases hms : c0.metric.stats with
    | some ref =>
      have hg : group_count p = p.2.length * ref.values.length := by
        simp [group_count, rep_ref, hc, hms]
      have step : num_hyp_go tot (p :: l) =
          num_hyp_go (tot + p.2.length * ref.values.length) l := by
        simp [num_hyp_go, hc, hms]
      rw [step, ih (tot + p.2.length * ref.values.length) hrest,
        List.map_cons, List.sum_cons, ← hg, Nat.add_assoc]
    | none =>
      have hg : group_count p = p.2.length := by
        simp [group_count, rep_ref, hc, hms]
      have step : num_hyp_go tot (p :: l) =
          num_hyp_go (tot + p.2.length) l := by
        simp [num_hyp_go, hc, hms]
      rw [step, ih (tot + p.2.length) hrest,
        List.map_cons, List.sum_cons, ← hg, Nat.add_assoc]

/-- `num_hypotheses` as the spec's per-attribute sum (internal form). -/
theorem num_hypotheses_sum_aux (inv : Investigation)
    (h : ∀ p ∈ inv.contexts, p.2 ≠ []) :
    num_hypotheses inv = some ((inv.contexts.map group_count).sum) := by
  have := num_hyp_go_eq inv.contexts 0 h
  simpa [num_hypotheses] using this

/-- Claim C3: on an investigation all of whose protected attributes have a
non-empty context list, `num_hypotheses` returns (as the value of a pure,
side-effect-free function) the natural number obtained by summing, over the
attributes, `#contexts × #rows(reference table)` when the representative
metric is tabular and `#contexts` otherwise. -/
theorem num_hypotheses_eq_sum (inv : Investigation)
    (h : ∀ p ∈ inv.contexts, p.2 ≠ []) :
    num_hypotheses inv = some ((inv.contexts.map group_count).sum) :=
  num_hypotheses_sum_aux inv h

/-- Witness for C3: the spec's scenario — one attribute, two contexts,
tabular metric over a two-row reference table — counts `2 × 2 = 4`. -/
theorem num_hypotheses_eq_sum_w :
    (∀ p ∈ invTab.contexts, p.2 ≠ []) ∧
      (invTab.contexts.map group_count).sum = 4 ∧
      num_hypotheses invTab = some ((invTab.contexts.map group_count).sum) :=
  ⟨by simp [invTab, ctxsTab], by decide,
    num_hypotheses_eq_sum invTab (by simp [invTab, ctxsTab])⟩

/-- Claim C2: `compute_all_stats` takes the total hypothesis count as the
sum of `num_hypotheses` over the investigations, derives the per-test level
`1 - (1 - level) / T` from it, and hands exactly this adjusted level (not
the caller's `level`) to every `compute_stats` invocation of its stats
pass. -/
theorem compute_all_stats_bonferroni (invs : List Investigation)
    (exact : Bool) (level : ℚ) (hs : List ℕ)
    (h : invs.mapM num_hypotheses = some hs) (h0 : hs.sum ≠ 0) :
    total_hypotheses invs = some hs.sum ∧
      compute_all_stats invs exact level =
        correction_pipeline invs level
          (invs.mapM (fun inv => (sortedContexts inv).mapM (fun p =>
            (compute_stats p.2 exact (1 - (1 - level) / (hs.sum : ℚ))).map
              (fun r => (p.1, r))))) := by
  have hT : total_hypotheses invs = some hs.sum := by
    unfold total_hypotheses
    rw [h]
    rfl
  refine ⟨hT, ?_⟩
  have hmain : compute_all_stats invs exact level = correction_pipeline invs
      level (all_stats_pass invs exact (adj_level level hs.sum)) := by
    unfold compute_all_stats
    rw [hT]
    exact if_neg h0
  rw [hmain]
  rfl

/-- Witness for C2: the spec's three-context scenario, `T = 3`. -/
theorem compute_all_stats_bonferroni_w :
    [inv3].mapM num_hypotheses = some [3] ∧ ([3] : List ℕ).sum ≠ 0 ∧
      (total_hypotheses [inv3] = some (([3] : List ℕ).sum) ∧
        compute_all_stats [inv3] true (19/20) =
          correction_pipeline [inv3] (19/20)
            ([inv3].mapM (fun inv => (sortedContexts inv).mapM (fun p =>
              (compute_stats p.2 true
                (1 - (1 - (19/20 : ℚ)) / ((([3] : List ℕ).sum : ℕ) : ℚ))).map
                (fun r => (p.1, r)))))) :=
  ⟨by decide, by decide,
    compute_all_stats_bonferroni [inv3] true (19/20) [3] (by decide) (by decide)⟩

/-- Claim C1 (evidence of the code bug): on an investigation whose contexts
mapping iterates `"b"` before `"a"`, the compute and flatten passes walk
the stats dict in sorted key order — the raw p-values reach the Holm
correction as `[0.01 (a), 0.04 (b)]`, whose corrected values are
`[0.02, 0.04]` in that order — but the scatter pass walks
`inv.contexts.iteritems()` in the mapping's own order, so `b`'s row
receives `0.02`, the corrected p-value of `a`'s raw p-value, and `a`'s row
receives `0.04`: the i-th corrected value does not replace the stat row
whose raw p-value was i-th. -/
theorem scatter_misaligns_on_unsorted_contexts :
    total_hypotheses [invBA] = some 2 ∧
    all_stats_pass [invBA] true (adj_level (19/20) 2) =
      some [[("a", ⟨[[1/100]], [], []⟩), ("b", ⟨[[1/25]], [], []⟩)]] ∧
    flatten_pvals [[("a", ⟨[[1/100]], [], []⟩), ("b", ⟨[[1/25]], [], []⟩)]] =
      some [1/100, 1/25] ∧
    holm_corrected [1/100, 1/25] = [1/50, 1/25] ∧
    compute_all_stats [invBA] true (19/20) =
      some [[("a", .rows [[1/25]]), ("b", .rows [[1/50]])]] := by
  refine ⟨by decide, by decide, by decide, by decide, by decide⟩

/-- Every element of a successfully flattened p-value collection is at
least the `1e-180` floor. -/
theorem flatten_floor_mem (allStats : List (List (String × CSResult)))
    (ps : List ℚ) (h : flatten_pvals allStats = some ps) :
    ∀ p ∈ ps, pfloor ≤ p := by
  intro p hp
  unfold flatten_pvals at h
  rw [Option.map_eq_some'] at h
  obtain ⟨nested, hn, hps⟩ := h
  subst hps
  obtain ⟨l, hl, hpl⟩ := List.mem_flatten.mp hp
  obtain ⟨invStats, _, hF⟩ := forall₂_mem_right (mapM_inv hn) l hl
  rw [Option.map_eq_some'] at hF
  obtain ⟨linner, hin, hfl⟩ := hF
  subst hfl
  obtain ⟨q, hq, hpq⟩ := List.mem_flatten.mp hpl
  obtain ⟨entry, _, hG⟩ := forall₂_mem_right (mapM_inv hin) q hq
  obtain ⟨row, _, hclamp⟩ := forall₂_mem_right (mapM_inv hG) p hpq
  unfold clamp_last at hclamp
  rw [Option.map_eq_some'] at hclamp
  obtain ⟨y, _, hy⟩ := hclamp
  rw [← hy]
  exact le_max_right y pfloor

/-- Claim C9: every p-value the flatten step extracts is floored at
`1e-180` before the correction sees it — no smaller value is ever fed to
the correction — and the clamp maps a raw p-value of exactly `0` to
`1e-180` (the clamp itself is a total `max`, raising nothing). -/
theorem flatten_pvals_floored (allStats : List (List (String × CSResult)))
    (ps : List ℚ) (h : flatten_pvals allStats = some ps) :
    (∀ p ∈ ps, pfloor ≤ p) ∧ clamp_last [0] = some pfloor :=
  ⟨flatten_floor_mem allStats ps h, by decide⟩

/-- Witness for C9: a single stat row whose raw p-value is exactly `0`
flattens to exactly `[1e-180]`. -/
theorem flatten_pvals_floored_w :
    flatten_pvals [[("z", ⟨[[0]], [], []⟩)]] = some [pfloor] ∧
      ((∀ p ∈ [pfloor], pfloor ≤ p) ∧ clamp_last [0] = some pfloor) :=
  ⟨by decide, flatten_pvals_floored [[("z", ⟨[[0]], [], []⟩)]] [pfloor] (by decide)⟩

/-- Mapping `Stats.table` then projecting back succeeds and is the
identity. -/
theorem mapM_toTable_map :
    ∀ tcs : List Table, (tcs.map Stats.table).mapM Stats.toTable? = some tcs
  | [] => rfl
  | t :: tcs => by
    simp only [List.map_cons, mapM_opt_cons, mapM_toTable_map tcs,
      Stats.toTable?, Option.some_bind]

/-- Mapping `Stats.row` then projecting back succeeds and is the
identity. -/
theorem mapM_toRow_map :
    ∀ rows : List (List ℚ), (rows.map Stats.row).mapM Stats.toRow? = some rows
  | [] => rfl
  | r :: rows => by
    simp only [List.map_cons, mapM_opt_cons, mapM_toRow_map rows,
      Stats.toRow?, Option.some_bind]

/-- The two branch behaviours of `compute_stats` (internal form). -/
theorem compute_stats_cases (contexts : List Context) (exact : Bool)
    (lvl : ℚ) (hne : contexts ≠ []) :
    (∀ tcs : List Table,
      (rep_ref contexts).isSome →
      contexts.map (fun c => c.metric.compute c.data lvl exact) =
        tcs.map Stats.table →
      compute_stats contexts exact lvl =
        some ⟨(tcs.map Table.values).flatten, (tcs.map Table.index).flatten,
          ((tcs.head?.map Table.cols).getD [])⟩) ∧
    (∀ rows : List (List ℚ),
      rep_ref contexts = none →
      contexts.map (fun c => c.metric.compute c.data lvl exact) =
        rows.map Stats.row →
      compute_stats contexts exact lvl = some ⟨rows, [], []⟩) := by
  obtain ⟨c0, rest, rfl⟩ := List.exists_cons_of_ne_nil hne
  constructor
  · intro tcs hsome heq
    have hrep : rep_ref (c0 :: rest) = c0.metric.stats := rfl
    rw [hrep] at hsome
    cases hms : c0.metric.stats with
    | none => rw [hms] at hsome; simp at hsome
    | some t =>
      simp only [compute_stats, List.head?_cons, hms, heq, mapM_toTable_map]
  · intro rows hnone heq
    have hrep : rep_ref (c0 :: rest) = c0.metric.stats := rfl
    rw [hrep] at hnone
    simp only [compute_stats, List.head?_cons, hnone, heq, mapM_toRow_map]

/-- Claim C7: on a non-empty context list, `compute_stats` applies each
context's own metric to that context's own data at the given level with the
given exact flag, once per context in input order; when the representative
(first context's) metric is tabular it returns the row-wise concatenation
of the per-context tables together with the concatenated row labels and the
shared column labels, and when it is scalar it returns the list of
per-context rows unchanged, with output order exactly the input context
order. -/
theorem compute_stats_spec (contexts : List Context) (exact : Bool)
    (lvl : ℚ) (hne : contexts ≠ []) :
    (∀ tcs : List Table,
      (rep_ref contexts).isSome →
      contexts.map (fun c => c.metric.compute c.data lvl exact) =
        tcs.map Stats.table →
      compute_stats contexts exact lvl =
        some ⟨(tcs.map Table.values).flatten, (tcs.map Table.index).flatten,
          ((tcs.head?.map Table.cols).getD [])⟩) ∧
    (∀ rows : List (List ℚ),
      rep_ref contexts = none →
      contexts.map (fun c => c.metric.compute c.data lvl exact) =
        rows.map Stats.row →
      compute_stats contexts exact lvl = some ⟨rows, [], []⟩) :=
  compute_stats_cases contexts exact lvl hne

/-- Witness for C7: the two-context tabular group of `invTab`. -/
theorem compute_stats_spec_w :
    (ctxsTab ≠ []) ∧ ((rep_ref ctxsTab).isSome) ∧
      (ctxsTab.map (fun c => c.metric.compute c.data (79/80) true) =
        [tabT 1 2, tabT 3 4].map Stats.table) ∧
      compute_stats ctxsTab true (79/80) =
        some ⟨([tabT 1 2, tabT 3 4].map Table.values).flatten,
          ([tabT 1 2, tabT 3 4].map Table.index).flatten,
          (([tabT 1 2, tabT 3 4].head?.map Table.cols).getD [])⟩ :=
  ⟨by unfold ctxsTab; exact List.cons_ne_nil _ _, by decide, by decide,
    (compute_stats_spec ctxsTab true (79/80)
      (by unfold ctxsTab; exact List.cons_ne_nil _ _)).1
      [tabT 1 2, tabT 3 4] (by decide) (by decide)⟩

/-- `cummaxFrom` preserves length. -/
theorem length_cummaxFrom (m : ℚ) :
    ∀ l : List ℚ, (cummaxFrom m l).length = l.length
  | [] => rfl
  | q :: qs => by simp [cummaxFrom, length_cummaxFrom (max m q) qs]

/-- `cummax` preserves length. -/
theorem length_cummax : ∀ l : List ℚ, (cummax l).length = l.length
  | [] => rfl
  | q :: qs => by simp [cummax, length_cummaxFrom]

/-- A seeded running maximum dominates its input pointwise. -/
theorem cummaxFrom_ge (m : ℚ) :
    ∀ (l : List ℚ) (j : ℕ), l.getD j 0 ≤ (cummaxFrom m l).getD j 0
  | [], _ => le_refl _
  | q :: qs, 0 => by simp [cummaxFrom]
  | q :: qs, j + 1 => by
    simp only [cummaxFrom, List.getD_cons_succ]
    exact cummaxFrom_ge (max m q) qs j

/-- `np.maximum.accumulate` dominates its input pointwise. -/
theorem cummax_ge : ∀ (l : List ℚ) (j : ℕ), l.getD j 0 ≤ (cummax l).getD j 0
  | [], _ => le_refl _
  | q :: qs, 0 => by simp [cummax]
  | q :: qs, j + 1 => by
    simp only [cummax, List.getD_cons_succ]
    exact cummaxFrom_ge q qs j

/-- `holm_corrected` unfolded to its named internals. -/
theorem holm_corrected_eq (pvals : List ℚ) :
    holm_corrected pvals =
      (List.range pvals.length).map
        (fun i => (lookupA i (holm_corr pvals)).getD 0) := rfl

/-- `holm_corrected` returns one corrected p-value per input p-value. -/
theorem length_holm_corrected (pvals : List ℚ) :
    (holm_corrected pvals).length = pvals.length := by
  rw [holm_corrected_eq, List.length_map, List.length_range]

/-- The Holm-corrected value at every original position dominates the input
p-value there, for inputs within `[0, 1]`. -/
theorem holm_corrected_ge (ps : List ℚ) (h0 : ∀ p ∈ ps, 0 ≤ p)
    (h1 : ∀ p ∈ ps, p ≤ 1) (i : ℕ) (hi : i < ps.length) :
    ps.getD i 0 ≤ (holm_corrected ps).getD i 0 := by
  have hperm : List.Perm (holm_sortd ps) ps.enum :=
    List.perm_insertionSort _ _
  have hsl : (holm_sortd ps).length = ps.length := by
    rw [hperm.length_eq, List.enum_length]
  have hienum : i < ps.enum.length := by rw [List.enum_length]; exact hi
  have hpsi : ps.getD i 0 = ps[i] := List.getD_eq_getElem ps 0 hi
  have hmem_enum : (i, ps.getD i 0) ∈ ps.enum := by
    rw [hpsi, ← List.getElem_enum ps i hienum]
    exact List.getElem_mem hienum
  have hmem_sortd : (i, ps.getD i 0) ∈ holm_sortd ps :=
    hperm.mem_iff.mpr hmem_enum
  obtain ⟨j, hj, hsj⟩ := List.mem_iff_getElem.mp hmem_sortd
  have hjn : j < ps.length := hsl ▸ hj
  have hjel : j < (holm_sortd ps).enum.length := by
    rw [List.enum_length]; exact hj
  have hrawlen : (holm_raw ps).length = (holm_sortd ps).length := by
    unfold holm_raw
    rw [List.length_map, List.enum_length]
  have hjraw : j < (holm_raw ps).length := by rw [hrawlen]; exact hj
  have hraw_j : (holm_raw ps)[j] =
      (i, ps.getD i 0 * ((ps.length - j : ℕ) : ℚ)) := by
    unfold holm_raw
    rw [List.getElem_map, List.getElem_enum _ _ hjel, hsj]
  have hjsnd : j < ((holm_raw ps).map Prod.snd).length := by
    rw [List.length_map]; exact hjraw
  have hsnd : ((holm_raw ps).map Prod.snd).getD j 0 =
      ps.getD i 0 * ((ps.length - j : ℕ) : ℚ) := by
    rw [List.getD_eq_getElem _ _ hjsnd, List.getElem_map, hraw_j]
  have hjcm : j < (cummax ((holm_raw ps).map Prod.snd)).length := by
    rw [length_cummax, List.length_map]; exact hjraw
  have hjcm2 : j < ((cummax ((holm_raw ps).map Prod.snd)).map
      (fun q => min q 1)).length := by
    rw [List.length_map]; exact hjcm
  have hjcorr : j < (holm_corr ps).length := by
    unfold holm_corr
    rw [List.length_zip, List.length_map, List.length_map,
      length_cummax, List.length_map]
    simp [hjraw]
  have hcorr_j : (holm_corr ps)[j] =
      (i, min ((cummax ((holm_raw ps).map Prod.snd))[j]) 1) := by
    unfold holm_corr
    rw [List.getElem_zip, List.getElem_map, hraw_j, List.getElem_map]
  have hp_mem : ps.getD i 0 ∈ ps := by
    rw [hpsi]; exact List.getElem_mem hi
  have hp0 : 0 ≤ ps.getD i 0 := h0 _ hp_mem
  have hp1 : ps.getD i 0 ≤ 1 := h1 _ hp_mem
  have hnj : (1 : ℚ) ≤ ((ps.length - j : ℕ) : ℚ) := by
    have h1n : 1 ≤ ps.length - j := by omega
    exact_mod_cast h1n
  have hmul : ps.getD i 0 ≤ ps.getD i 0 * ((ps.length - j : ℕ) : ℚ) :=
    le_mul_of_one_le_right hp0 hnj
  have hvge : ps.getD i 0 ≤
      min ((cummax ((holm_raw ps).map Prod.snd))[j]) 1 := by
    refine le_min ?_ hp1
    calc ps.getD i 0 ≤ ps.getD i 0 * ((ps.length - j : ℕ) : ℚ) := hmul
      _ = ((holm_raw ps).map Prod.snd).getD j 0 := hsnd.symm
      _ ≤ (cummax ((holm_raw ps).map Prod.snd)).getD j 0 := cummax_ge _ j
      _ = (cummax ((holm_raw ps).map Prod.snd))[j] :=
        List.getD_eq_getElem _ _ hjcm
  have hkeys1 : (holm_corr ps).map Prod.fst = (holm_raw ps).map Prod.fst := by
    unfold holm_corr
    refine List.map_fst_zip _ _ ?_
    rw [List.length_map, List.length_map, length_cummax, List.length_map]
  have hkeys2 : (holm_raw ps).map Prod.fst =
      (holm_sortd ps).map Prod.fst := by
    unfold holm_raw
    rw [List.map_map]
    have hfs : (Prod.fst ∘ fun jp : ℕ × (ℕ × ℚ) =>
        (jp.2.1, jp.2.2 * ((ps.length - jp.1 : ℕ) : ℚ))) =
        Prod.fst ∘ Prod.snd := rfl
    rw [hfs, ← List.map_map, List.enum_map_snd]
  have hkeys3 : List.Perm ((holm_sortd ps).map Prod.fst)
      (List.range ps.length) := by
    have hh := hperm.map Prod.fst
    rw [List.enum_map_fst] at hh
    exact hh
  have hnodup : ((holm_corr ps).map Prod.fst).Nodup := by
    rw [hkeys1, hkeys2]
    exact hkeys3.nodup_iff.mpr (List.nodup_range _)
  have hmem_corr :
      (i, min ((cummax ((holm_raw ps).map Prod.snd))[j]) 1) ∈ holm_corr ps := by
    rw [← hcorr_j]
    exact List.getElem_mem hjcorr
  have hlook : lookupA i (holm_corr ps) =
      some (min ((cummax ((holm_raw ps).map Prod.snd))[j]) 1) :=
    mem_lookupA hnodup hmem_corr
  have hlenr : i < ((List.range ps.length).map
      (fun i => (lookupA i (holm_corr ps)).getD 0)).length := by
    rw [List.length_map, List.length_range]; exact hi
  have hout_i : (holm_corrected ps).getD i 0 =
      (lookupA i (holm_corr ps)).getD 0 := by
    rw [holm_corrected_eq, List.getD_eq_getElem _ _ hlenr, List.getElem_map,
      List.getElem_range]
  rw [hout_i, hlook]
  exact hvge

/-- Factor a list of images through a constructor-like map. -/
theorem exists_map_factor {α β γ : Type} (g : α → γ) (F : β → γ)
    (Φ : β → Prop) :
    ∀ l : List α, (∀ a ∈ l, ∃ b, g a = F b ∧ Φ b) →
      ∃ bs : List β, l.map g = bs.map F ∧ bs.length = l.length ∧
        ∀ b ∈ bs, Φ b
  | [], _ => ⟨[], rfl, rfl, by simp⟩
  | a :: l, h => by
    obtain ⟨b, hb, hΦ⟩ := h a (by simp)
    obtain ⟨bs, hmap, hlen, hall⟩ :=
      exists_map_factor g F Φ l (fun x hx => h x (by simp [hx]))
    refine ⟨b :: bs, by simp [hb, hmap], by simp [hlen], ?_⟩
    intro c hc
    rcases List.mem_cons.mp hc with rfl | hc
    · exact hΦ
    · exact hall c hc

/-- Destructor for `ctx_result_ok` with a tabular reference. -/
theorem ctx_result_ok_table {exact : Bool} {lvl : ℚ} {tref : Table}
    {c : Context} (h : ctx_result_ok exact lvl (some tref) c) :
    ∃ tc : Table, c.metric.compute c.data lvl exact = Stats.table tc ∧
      tc.values.length = tref.values.length ∧
      tc.index.length = tc.values.length ∧ ∀ row ∈ tc.values, row ≠ [] := by
  unfold ctx_result_ok at h
  cases hcc : c.metric.compute c.data lvl exact with
  | row r => rw [hcc] at h; exact absurd h (by simp)
  | table tc =>
    rw [hcc] at h
    exact ⟨tc, rfl, h.1, h.2.1, h.2.2⟩

/-- Destructor for `ctx_result_ok` with a scalar reference. -/
theorem ctx_result_ok_row {exact : Bool} {lvl : ℚ} {c : Context}
    (h : ctx_result_ok exact lvl none c) :
    ∃ r : List ℚ, c.metric.compute c.data lvl exact = Stats.row r ∧
      r ≠ [] := by
  unfold ctx_result_ok at h
  cases hcc : c.metric.compute c.data lvl exact with
  | row r =>
    rw [hcc] at h
    exact ⟨r, rfl, h⟩
  | table tc => rw [hcc] at h; exact absurd h (by simp)

/-- A well-formed tabular group: the per-context tables exist, all with the
reference row count, and `compute_stats` returns their concatenation. -/
theorem compute_stats_tab (p : String × List Context) (exact : Bool)
    (lvl : ℚ) (tref : Table) (href : rep_ref p.2 = some tref)
    (hne : p.2 ≠ [])
    (hok : ∀ c ∈ p.2, ctx_result_ok exact lvl (rep_ref p.2) c) :
    ∃ tcs : List Table,
      p.2.map (fun c => c.metric.compute c.data lvl exact) =
        tcs.map Stats.table ∧
      tcs.length = p.2.length ∧
      (∀ tc ∈ tcs, tc.values.length = tref.values.length ∧
        tc.index.length = tc.values.length ∧ ∀ row ∈ tc.values, row ≠ []) ∧
      compute_stats p.2 exact lvl =
        some ⟨(tcs.map Table.values).flatten, (tcs.map Table.index).flatten,
          ((tcs.head?.map Table.cols).getD [])⟩ := by
  obtain ⟨bs, hmap, hlen, hall⟩ := exists_map_factor
    (fun c => c.metric.compute c.data lvl exact) Stats.table
    (fun tc => tc.values.length = tref.values.length ∧
      tc.index.length = tc.values.length ∧ ∀ row ∈ tc.values, row ≠ [])
    p.2 (fun c hc => ctx_result_ok_table (href ▸ hok c hc))
  refine ⟨bs, hmap, hlen, hall, ?_⟩
  exact (compute_stats_cases p.2 exact lvl hne).1 bs
    (by rw [href]; rfl) hmap

/-- A well-formed scalar group: the per-context rows exist and
`compute_stats` returns them unchanged. -/
theorem compute_stats_scal (p : String × List Context) (exact : Bool)
    (lvl : ℚ) (href : rep_ref p.2 = none) (hne : p.2 ≠ [])
    (hok : ∀ c ∈ p.2, ctx_result_ok exact lvl (rep_ref p.2) c) :
    ∃ rows : List (List ℚ),
      p.2.map (fun c => c.metric.compute c.data lvl exact) =
        rows.map Stats.row ∧
      rows.length = p.2.length ∧ (∀ r ∈ rows, r ≠ []) ∧
      compute_stats p.2 exact lvl = some ⟨rows, [], []⟩ := by
  obtain ⟨bs, hmap, hlen, hall⟩ := exists_map_factor
    (fun c => c.metric.compute c.data lvl exact) Stats.row
    (fun r => r ≠ [])
    p.2 (fun c hc => ctx_result_ok_row (href ▸ hok c hc))
  refine ⟨bs, hmap, hlen, hall, ?_⟩
  exact (compute_stats_cases p.2 exact lvl hne).2 bs href hmap

/-- A well-formed group's `compute_stats` succeeds with exactly the group's
hypothesis count many stat rows, all non-empty. -/
theorem compute_stats_count (p : String × List Context) (exact : Bool)
    (lvl : ℚ) (hne : p.2 ≠ [])
    (hok : ∀ c ∈ p.2, ctx_result_ok exact lvl (rep_ref p.2) c) :
    ∃ r : CSResult, compute_stats p.2 exact lvl = some r ∧
      r.stats.length = group_count p ∧ ∀ row ∈ r.stats, row ≠ [] := by
  cases href : rep_ref p.2 with
  | some tref =>
    obtain ⟨tcs, _, hlen, hall, hcs⟩ :=
      compute_stats_tab p exact lvl tref href hne hok
    refine ⟨_, hcs, ?_, ?_⟩
    · rw [List.length_flatten, List.map_map]
      have hrep : tcs.map (List.length ∘ Table.values) =
          List.replicate tcs.length tref.values.length := by
        rw [List.eq_replicate]
        refine ⟨by simp, ?_⟩
        intro b hb
        obtain ⟨tc, htc, hbv⟩ := List.mem_map.mp hb
        rw [← hbv]
        exact (hall tc htc).1
      rw [hrep, List.sum_replicate, smul_eq_mul, group_count, href, hlen]
    · intro row hrow
      obtain ⟨l, hl, hrl⟩ := List.mem_flatten.mp hrow
      obtain ⟨tc, htc, hlv⟩ := List.mem_map.mp hl
      exact (hall tc htc).2.2 row (hlv ▸ hrl)
  | none =>
    obtain ⟨rows, _, hlen, hall, hcs⟩ :=
      compute_stats_scal p exact lvl href hne hok
    refine ⟨_, hcs, ?_, hall⟩
    rw [group_count, href]
    exact hlen

/-- A non-empty stat row clamps successfully. -/
theorem clamp_last_some {row : List ℚ} (h : row ≠ []) :
    ∃ q, clamp_last row = some q := by
  obtain ⟨x, hx⟩ := Option.isSome_iff_exists.mp (List.getLast?_isSome.mpr h)
  exact ⟨max x pfloor, by rw [clamp_last, hx]; rfl⟩

/-- Sums of pointwise-related lengths agree. -/
theorem forall₂_sum_eq {α β : Type} {g : α → ℕ} {h : β → ℕ} :
    ∀ {l : List α} {l2 : List β},
      List.Forall₂ (fun a b => h b = g a) l l2 →
      (l2.map h).sum = (l.map g).sum := by
  intro l l2 hf
  induction hf with
  | nil => rfl
  | cons hR _ ih => simp [hR, ih]

/-- Composition of two pointwise relations along a middle list. -/
theorem forall₂_comp {α β γ : Type} {P : α → β → Prop} {Q : β → γ → Prop}
    {R : α → γ → Prop} (hPQ : ∀ a b c, P a b → Q b c → R a c) :
    ∀ {l1 : List α} {l2 : List β} {l3 : List γ},
      List.Forall₂ P l1 l2 → List.Forall₂ Q l2 l3 → List.Forall₂ R l1 l3 := by
  intro l1 l2 l3 h1
  induction h1 generalizing l3 with
  | nil =>
    intro h2
    cases h2
    exact .nil
  | cons hP _ ih =>
    intro h2
    cases h2 with
    | cons hQ h2t => exact .cons (hPQ _ _ _ hP hQ) (ih h2t)

/-- One investigation's stats pass and flatten segment: both succeed and
the segment holds exactly `num_hypotheses` p-values. -/
theorem pass_flatten_inv (inv : Investigation) (exact : Bool) (lvl : ℚ)
    (hok : inv_ok exact lvl inv) :
    ∃ (ist : List (String × CSResult)) (inner : List (List ℚ)),
      (sortedContexts inv).mapM (fun p =>
        (compute_stats p.2 exact lvl).map (fun r => (p.1, r))) = some ist ∧
      ist.mapM (fun e => e.2.stats.mapM clamp_last) = some inner ∧
      num_hypotheses inv = some (inner.flatten.length) := by
  have hperm : List.Perm (sortedContexts inv) inv.contexts :=
    List.perm_insertionSort _ _
  have hok2 : ∀ p ∈ sortedContexts inv, p.2 ≠ [] ∧
      ∀ c ∈ p.2, ctx_result_ok exact lvl (rep_ref p.2) c :=
    fun p hp => hok p (hperm.mem_iff.mp hp)
  obtain ⟨ist, hist, hrel⟩ := mapM_some (P := fun p e =>
      ∃ r : CSResult, e = (p.1, r) ∧ r.stats.length = group_count p ∧
        ∀ row ∈ r.stats, row ≠ [])
    (sortedContexts inv)
    (fun p => (compute_stats p.2 exact lvl).map (fun r => (p.1, r)))
    (fun p hp => by
      obtain ⟨r, hcs, hcount, hrows⟩ :=
        compute_stats_count p exact lvl (hok2 p hp).1 (hok2 p hp).2
      exact ⟨(p.1, r), by simp only [hcs, Option.map_some'], r, rfl,
        hcount, hrows⟩)
  obtain ⟨inner, hinner, hrel2⟩ := mapM_some (P := fun (e : String × CSResult)
      (qs : List ℚ) => qs.length = e.2.stats.length)
    ist (fun e => e.2.stats.mapM clamp_last) (fun e he => by
      obtain ⟨p, _, r, her, _, hrows⟩ := forall₂_mem_right hrel e he
      obtain ⟨qs, hqs, hq⟩ := mapM_some (P := fun _ _ => True) e.2.stats
        clamp_last (fun row hrow => by
          obtain ⟨q, hq⟩ := clamp_last_some (by
            subst her
            exact hrows row hrow)
          exact ⟨q, hq, trivial⟩)
      exact ⟨qs, hqs, hq.length_eq.symm⟩)
  refine ⟨ist, inner, hist, hinner, ?_⟩
  have hmid : List.Forall₂ (fun (p : String × List Context)
      (qs : List ℚ) => qs.length = group_count p)
      (sortedContexts inv) inner := by
    refine forall₂_comp ?_ hrel hrel2
    intro p e qs hP hQ
    obtain ⟨r, her, hcount, _⟩ := hP
    rw [hQ, her, hcount]
  have hsum : inner.flatten.length =
      ((inv.contexts.map group_count).sum) := by
    rw [List.length_flatten, forall₂_sum_eq hmid]
    exact (hperm.map group_count).sum_eq
  rw [hsum]
  exact num_hypotheses_sum_aux inv (fun p hp => (hok p hp).1)

/-- The whole batch's stats pass and flatten: both succeed, and the
flattened collection holds one p-value per hypothesis. -/
theorem pass_flatten_go :
    ∀ (invs : List Investigation) (exact : Bool) (lvl : ℚ) (hs : List ℕ),
      invs.mapM num_hypotheses = some hs →
      (∀ inv ∈ invs, inv_ok exact lvl inv) →
      ∃ st ps, all_stats_pass invs exact lvl = some st ∧
        flatten_pvals st = some ps ∧ ps.length = hs.sum
  | [], _, _, hs, hmap, _ => by
    rw [mapM_opt_nil] at hmap
    cases hmap
    exact ⟨[], [], rfl, rfl, rfl⟩
  | inv :: invs, exact, lvl, hs, hmap, hok => by
    rw [mapM_opt_cons] at hmap
    cases hnum : num_hypotheses inv with
    | none => rw [hnum] at hmap; simp at hmap
    | some h0 =>
      rw [hnum] at hmap
      cases hrest : invs.mapM num_hypotheses with
      | none => rw [hrest] at hmap; simp at hmap
      | some hrests =>
        rw [hrest] at hmap
        simp only [Option.some_bind, Option.some_inj] at hmap
        subst hmap
        obtain ⟨st, ps, hpass, hflat, hlen⟩ := pass_flatten_go invs exact lvl
          hrests hrest (fun i hi => hok i (List.mem_cons_of_mem _ hi))
        obtain ⟨ist, inner, hist, hinner, hnum2⟩ := pass_flatten_inv inv
          exact lvl (hok inv (List.mem_cons_self _ _))
        have hh0 : h0 = inner.flatten.length := by
          rw [hnum] at hnum2
          exact Option.some_inj.mp hnum2
        refine ⟨ist :: st, inner.flatten ++ ps, ?_, ?_, ?_⟩
        · unfold all_stats_pass at hpass ⊢
          rw [mapM_opt_cons]
          simp only [hist, hpass, Option.some_bind]
        · unfold flatten_pvals at hflat ⊢
          rw [Option.map_eq_some'] at hflat
          obtain ⟨nest, hnest, hnps⟩ := hflat
          rw [mapM_opt_cons]
          simp only [hinner, hnest, Option.map_some', Option.some_bind]
          rw [List.flatten_cons, hnps]
        · rw [List.length_append, hlen, List.sum_cons, hh0]

/-- Claim C4: for a batch whose metric computes match their reference
shapes and whose total hypothesis count is `t`, the stats pass succeeds and
the flattened p-value collection that `compute_all_stats` hands to the Holm
correction has exactly `t` elements. -/
theorem flatten_length_eq_total (invs : List Investigation) (exact : Bool)
    (lvl : ℚ) (t : ℕ) (hT : total_hypotheses invs = some t)
    (hok : ∀ inv ∈ invs, inv_ok exact lvl inv) :
    ∃ st ps, all_stats_pass invs exact lvl = some st ∧
      flatten_pvals st = some ps ∧ ps.length = t := by
  unfold total_hypotheses at hT
  rw [Option.map_eq_some'] at hT
  obtain ⟨hs, hmap, hsum⟩ := hT
  obtain ⟨st, ps, h1, h2, h3⟩ := pass_flatten_go invs exact lvl hs hmap hok
  exact ⟨st, ps, h1, h2, by rw [h3, hsum]⟩

/-- Witness for C4: the tabular scenario (`T = 2 × 2 = 4`) at the adjusted
level `79/80`. -/
theorem flatten_length_eq_total_w :
    total_hypotheses [invTab] = some 4 ∧
      (∀ inv ∈ [invTab], inv_ok true (79/80) inv) ∧
      (∃ st ps, all_stats_pass [invTab] true (79/80) = some st ∧
        flatten_pvals st = some ps ∧ ps.length = 4) := by
  have hok : ∀ inv ∈ [invTab], inv_ok true (79/80) inv := by
    intro inv hinv
    rw [List.mem_singleton] at hinv
    subst hinv
    intro p hp
    simp only [invTab, List.mem_singleton] at hp
    subst hp
    refine ⟨by simp [ctxsTab], ?_⟩
    intro c hc
    simp only [ctxsTab, List.mem_cons, List.mem_singleton,
      List.not_mem_nil, or_false] at hc
    rcases hc with rfl | rfl <;>
      simp [ctx_result_ok, rep_ref, ctxsTab, tabMetric, tabT, refT]
  exact ⟨by decide, hok,
    flatten_length_eq_total [invTab] true (79/80) 4 (by decide) hok⟩

/-- Claim C5: the corrected p-values that `compute_all_stats` writes back
are consumed strictly in flatten order, and for every position `i` of the
flattened collection, the Holm-corrected p-value at `i` is at least the
floor-clamped raw p-value that was fed to the correction at `i` (raw
p-values never exceeding 1). -/
theorem holm_ge_clamped_input (allStats : List (List (String × CSResult)))
    (ps : List ℚ) (hflat : flatten_pvals allStats = some ps)
    (hub : ∀ p ∈ ps, p ≤ 1) (i : ℕ) (hi : i < ps.length) :
    ps.getD i 0 ≤ (holm_corrected ps).getD i 0 := by
  have h0 : ∀ p ∈ ps, 0 ≤ p := fun p hp =>
    le_trans (by norm_num [pfloor]) (flatten_floor_mem allStats ps hflat p hp)
  exact holm_corrected_ge ps h0 hub i hi

/-- Witness for C5: a two-row attribute with raw p-values `0.02`, `0.03`;
Holm corrects position 0 to `0.04 ≥ 0.02`. -/
theorem holm_ge_clamped_input_w :
    flatten_pvals [[("s", ⟨[[1/50], [3/100]], [], []⟩)]] =
        some [1/50, 3/100] ∧
      (∀ p ∈ [(1:ℚ)/50, 3/100], p ≤ 1) ∧ ((0:ℕ) < 2) ∧
      ([(1:ℚ)/50, 3/100].getD 0 0 ≤ (holm_corrected [1/50, 3/100]).getD 0 0) :=
  ⟨by decide, by decide, by decide,
    holm_ge_clamped_input [[("s", ⟨[[1/50], [3/100]], [], []⟩)]] [1/50, 3/100]
      (by decide) (by decide) 0 (by decide)⟩

/-- A pointwise witness on the left of a `Forall₂`. -/
theorem forall₂_mem_left {α β : Type} {R : α → β → Prop} :
    ∀ {l : List α} {l2 : List β}, List.Forall₂ R l l2 →
      ∀ a ∈ l, ∃ b ∈ l2, R a b := by
  intro l l2 h
  induction h with
  | nil => intro a ha; simp at ha
  | cons hR _ ih =>
    intro a ha
    rcases List.mem_cons.mp ha with rfl | ha
    · exact ⟨_, by simp, hR⟩
    · obtain ⟨b, hb, hr⟩ := ih a ha
      exact ⟨b, by simp [hb], hr⟩

/-- Pointwise-equal images give equal maps. -/
theorem forall₂_map_eq {α β γ : Type} {g : α → γ} {h : β → γ} :
    ∀ {l : List α} {l2 : List β},
      List.Forall₂ (fun a b => h b = g a) l l2 → l2.map h = l.map g := by
  intro l l2 hf
  induction hf with
  | nil => rfl
  | cons hR _ ih => simp [hR, ih]

/-- `scatter_rows` preserves the number of stat rows. -/
theorem scatter_rows_length {rows : List (List ℚ)} {corr : List ℚ} {idx : ℕ}
    {out : List (List ℚ)} (h : scatter_rows rows corr idx = some out) :
    out.length = rows.length := by
  have := (mapM_inv h).length_eq
  rw [List.enum_length] at this
  exact this.symm

/-- The structural invariant of the scatter loop over one investigation:
the key sequence is unchanged, and each entry keeps its labels, columns and
row count (only the p-value fields change). -/
theorem scatter_groups_rel (corr : List ℚ) :
    ∀ (groups : List (String × List Context))
      (st : List (String × CSResult)) (idx : ℕ)
      (st2 : List (String × CSResult)) (idx2 : ℕ),
      scatter_groups corr groups st idx = some (st2, idx2) →
      st2.map Prod.fst = st.map Prod.fst ∧
      ∀ k r2, lookupA k st2 = some r2 → ∃ r, lookupA k st = some r ∧
        r2.index = r.index ∧ r2.cols = r.cols ∧
        r2.stats.length = r.stats.length
  | [], st, idx, st2, idx2, h => by
    unfold scatter_groups at h
    cases h
    exact ⟨rfl, fun k r2 h2 => ⟨r2, h2, rfl, rfl, rfl⟩⟩
  | p :: rest, st, idx, st2, idx2, h => by
    unfold scatter_groups at h
    cases hl : lookupA p.1 st with
    | none => rw [hl] at h; simp at h
    | some r =>
      rw [hl] at h
      dsimp only at h
      cases hs : scatter_rows r.stats corr idx with
      | none => rw [hs] at h; simp at h
      | some newRows =>
        rw [hs] at h
        dsimp only at h
        obtain ⟨hkeys, hrel⟩ := scatter_groups_rel corr rest
          (updateA p.1 { r with stats := newRows } st) (idx + r.stats.length)
          st2 idx2 h
        constructor
        · rw [hkeys, updateA_map_fst]
        · intro k r2 h2
          obtain ⟨r1, hr1, hidx, hcols, hlen⟩ := hrel k r2 h2
          by_cases hk : k = p.1
          · subst hk
            rw [lookupA_updateA_eq _ hl] at hr1
            cases hr1
            exact ⟨r, hl, hidx, hcols, by
              rw [hlen]
              exact scatter_rows_length hs⟩
          · rw [lookupA_updateA_ne _ hk] at hr1
            exact ⟨r1, hr1, hidx, hcols, hlen⟩

/-- The scatter pass relates each investigation's stats entry-wise as
`scatter_groups_rel` describes. -/
theorem scatter_invs_rel (corr : List ℚ) :
    ∀ (l : List (Investigation × List (String × CSResult))) (idx : ℕ)
      (sc : List (List (String × CSResult))),
      scatter_invs corr l idx = some sc →
      List.Forall₂ (fun pr sci =>
        sci.map Prod.fst = pr.2.map Prod.fst ∧
        ∀ k r2, lookupA k sci = some r2 → ∃ r, lookupA k pr.2 = some r ∧
          r2.index = r.index ∧ r2.cols = r.cols ∧
          r2.stats.length = r.stats.length) l sc
  | [], idx, sc, h => by
    unfold scatter_invs at h
    cases h
    exact .nil
  | pr :: rest, idx, sc, h => by
    unfold scatter_invs at h
    cases hg : scatter_groups corr pr.1.contexts pr.2 idx with
    | none => rw [hg] at h; simp at h
    | some stIdx =>
      rw [hg] at h
      dsimp only at h
      cases hrest : scatter_invs corr rest stIdx.2 with
      | none =>
        rw [hrest] at h
        simp at h
      | some rests =>
        rw [hrest] at h
        simp only [Option.some_inj] at h
        subst h
        refine .cons ?_ (scatter_invs_rel corr rest stIdx.2 rests hrest)
        obtain ⟨h1, h2⟩ :=
          scatter_groups_rel corr pr.1.contexts pr.2 idx stIdx.1 stIdx.2
            (by rw [hg])
        exact ⟨h1, h2⟩

/-- The structural description of the reassembly loop: keys are unchanged;
keys outside the walked groups are untouched; a tabular group's entry is
replaced by the `np.array_split` of its accumulated table, a scalar group's
entry is untouched. -/
theorem reshape_groups_rel :
    ∀ (groups : List (String × List Context)) (st st2 : List (String × Entry)),
      (groups.map Prod.fst).Nodup →
      reshape_groups groups st = some st2 →
      st2.map Prod.fst = st.map Prod.fst ∧
      (∀ k, k ∉ groups.map Prod.fst → lookupA k st2 = lookupA k st) ∧
      ∀ p ∈ groups, ∀ c0, p.2.head? = some c0 →
        (∀ ref, c0.metric.stats = some ref →
          ∃ (r : CSResult) (ts : List Table),
            lookupA p.1 st = some (.cs r) ∧
            lookupA p.1 st2 = some (.reshaped ts) ∧
            ref.values.length ≠ 0 ∧
            array_split_table ⟨r.stats, r.index, r.cols⟩
              (r.stats.length / ref.values.length) = some ts) ∧
        (c0.metric.stats = none → lookupA p.1 st2 = lookupA p.1 st)
  | [], st, st2, _, h => by
    unfold reshape_groups at h
    cases h
    exact ⟨rfl, fun _ _ => rfl, by simp⟩
  | p :: rest, st, st2, hnd, h => by
    unfold reshape_groups at h
    simp only [List.map_cons, List.nodup_cons] at hnd
    cases hc0 : p.2.head? with
    | none => rw [hc0] at h; simp at h
    | some c0 =>
      rw [hc0] at h
      dsimp only at h
      cases hms : c0.metric.stats with
      | none =>
        rw [hms] at h
        obtain ⟨h1, h2, h3⟩ := reshape_groups_rel rest st st2 hnd.2 h
        refine ⟨h1, ?_, ?_⟩
        · intro k hk
          exact h2 k (fun hh => hk (List.mem_cons_of_mem _ hh))
        · intro q hq c0q hc0q
          rcases List.mem_cons.mp hq with rfl | hq
          · rw [hc0] at hc0q
            cases hc0q
            refine ⟨?_, ?_⟩
            · intro ref href
              rw [href] at hms
              cases hms
            · intro _
              exact h2 q.1 hnd.1
          · exact h3 q hq c0q hc0q
      | some ref =>
        rw [hms] at h
        dsimp only at h
        cases hl : lookupA p.1 st with
        | none => rw [hl] at h; simp at h
        | some e =>
          rw [hl] at h
          cases e with
          | reshaped ts0 => simp at h
          | cs r =>
            dsimp only at h
            by_cases hz : ref.values.length = 0
            · rw [if_pos hz] at h
              simp at h
            · rw [if_neg hz] at h
              cases hsplit : array_split_table
                  ⟨r.stats, r.index, r.cols⟩
                  (r.stats.length / ref.values.length) with
              | none => rw [hsplit] at h; simp at h
              | some ts =>
                rw [hsplit] at h
                dsimp only at h
                obtain ⟨h1, h2, h3⟩ := reshape_groups_rel rest
                  (updateA p.1 (.reshaped ts) st) st2 hnd.2 h
                have hupd : ∀ k, k ≠ p.1 →
                    lookupA k (updateA p.1 (Entry.reshaped ts) st) =
                    lookupA k st :=
                  fun k hk => lookupA_updateA_ne _ hk st
                refine ⟨by rw [h1, updateA_map_fst], ?_, ?_⟩
                · intro k hk
                  have hk1 : k ≠ p.1 := fun he =>
                    hk (he ▸ List.mem_cons_self _ _)
                  have hk2 : k ∉ rest.map Prod.fst := fun hh =>
                    hk (List.mem_cons_of_mem _ hh)
                  rw [h2 k hk2, hupd k hk1]
                · intro q hq c0q hc0q
                  rcases List.mem_cons.mp hq with rfl | hq
                  · rw [hc0] at hc0q
                    cases hc0q
                    refine ⟨?_, ?_⟩
                    · intro ref2 href2
                      rw [href2] at hms
                      cases hms
                      refine ⟨r, ts, hl, ?_, hz, hsplit⟩
                      rw [h2 q.1 hnd.1]
                      exact lookupA_updateA_eq _ hl
                    · intro hnone
                      rw [hnone] at hms
                      cases hms
                  · have hq1 : q.1 ≠ p.1 := by
                      intro he
                      exact hnd.1 (he ▸ List.mem_map_of_mem Prod.fst hq)
                    obtain ⟨hq3a, hq3b⟩ := h3 q hq c0q hc0q
                    refine ⟨?_, ?_⟩
                    · intro ref2 href2
                      obtain ⟨r2, ts2, hr2, hts2, hz2, hsp2⟩ := hq3a ref2 href2
                      rw [hupd q.1 hq1] at hr2
                      exact ⟨r2, ts2, hr2, hts2, hz2, hsp2⟩
                    · intro hnone
                      rw [hq3b hnone, hupd q.1 hq1]

/-- `takeDropChunks` produces one chunk per requested size. -/
theorem takeDropChunks_length {α : Type} :
    ∀ (xs : List α) (ns : List ℕ), (takeDropChunks xs ns).length = ns.length
  | _, [] => rfl
  | xs, n :: ns => by
    simp [takeDropChunks, takeDropChunks_length (xs.drop n) ns]

/-- Each chunk of a list of `n * m` elements cut into `n` sections of `m`
has exactly `m` elements. -/
theorem takeDropChunks_const_len {α : Type} (m : ℕ) :
    ∀ (n : ℕ) (xs : List α), xs.length = n * m →
      ∀ l ∈ takeDropChunks xs (List.replicate n m), l.length = m
  | 0, xs, _, l, hl => by simp [takeDropChunks] at hl
  | n + 1, xs, hlen, l, hl => by
    rw [List.replicate_succ] at hl
    simp only [takeDropChunks, List.mem_cons] at hl
    rcases hl with rfl | hl
    · rw [List.length_take]
      have hge : m ≤ xs.length := by
        rw [hlen, Nat.succ_mul]
        omega
      omega
    · refine takeDropChunks_const_len m n (xs.drop m) ?_ l hl
      rw [List.length_drop, hlen, Nat.succ_mul]
      omega

/-- Chunking the flattening of equal-length blocks recovers the blocks. -/
theorem takeDropChunks_flatten {α : Type} (m : ℕ) :
    ∀ ls : List (List α), (∀ l ∈ ls, l.length = m) →
      takeDropChunks ls.flatten (List.replicate ls.length m) = ls
  | [], _ => rfl
  | l :: ls, h => by
    have hl : l.length = m := h l (List.mem_cons_self _ _)
    rw [List.length_cons, List.replicate_succ, List.flatten_cons]
    simp only [takeDropChunks]
    rw [← hl, List.take_left, List.drop_left, hl,
      takeDropChunks_flatten m ls (fun q hq => h q (List.mem_cons_of_mem _ hq))]

/-- `splitSizes` of an exact multiple: `n` equal sections of `m` rows. -/
theorem splitSizes_exact (n m : ℕ) (hn : n ≠ 0) :
    splitSizes (n * m) n = List.replicate n m := by
  unfold splitSizes
  rw [Nat.mul_mod_right, Nat.mul_div_cancel_left m (Nat.pos_of_ne_zero hn)]
  refine List.eq_replicate.mpr ⟨by simp, ?_⟩
  intro b hb
  simp only [List.mem_map, List.mem_range] at hb
  obtain ⟨i, _, hbi⟩ := hb
  simpa [Nat.not_lt_zero] using hbi.symm

/-- The flattening of equal-length blocks has `count × m` elements. -/
theorem flatten_len_const {α : Type} (m : ℕ) :
    ∀ ls : List (List α), (∀ l ∈ ls, l.length = m) →
      ls.flatten.length = ls.length * m
  | [], _ => by simp
  | l :: ls, h => by
    rw [List.flatten_cons, List.length_append,
      flatten_len_const m ls (fun q hq => h q (List.mem_cons_of_mem _ hq)),
      h l (List.mem_cons_self _ _), List.length_cons, Nat.succ_mul]
    omega

/-- `np.array_split` of a table of `n · m` rows whose labels flatten `n`
blocks of `m` labels, into `(n · m) / m = n` sections: one sub-table per
block, each of `m` rows, carrying its own labels and the shared columns. -/
theorem array_split_table_spec (flatRows : List (List ℚ))
    (ils : List (List String)) (cols : List String) (m : ℕ) (hm : m ≠ 0)
    (hn0 : ils.length ≠ 0) (hrows : flatRows.length = ils.length * m)
    (hils : ∀ l ∈ ils, l.length = m) :
    ∃ ts : List Table,
      array_split_table ⟨flatRows, ils.flatten, cols⟩
        (flatRows.length / m) = some ts ∧
      ts.length = ils.length ∧
      ts.map Table.index = ils ∧
      ∀ tb ∈ ts, tb.values.length = m ∧ tb.cols = cols := by
  have hk : flatRows.length / m = ils.length := by
    rw [hrows, Nat.mul_div_cancel ils.length (Nat.pos_of_ne_zero hm)]
  rw [hk]
  unfold array_split_table
  rw [if_neg hn0]
  have hsz : splitSizes flatRows.length ils.length =
      List.replicate ils.length m := by
    rw [hrows, splitSizes_exact ils.length m hn0]
  dsimp only
  rw [hsz, takeDropChunks_flatten m ils hils]
  have hvlen : (takeDropChunks flatRows
      (List.replicate ils.length m)).length = ils.length := by
    rw [takeDropChunks_length, List.length_replicate]
  refine ⟨_, rfl, ?_, ?_, ?_⟩
  · rw [List.length_map, List.length_zip, hvlen, min_self]
  · rw [List.map_map]
    have hcomp : (Table.index ∘ fun p : List (List ℚ) × List String =>
        ({ values := p.1, index := p.2, cols := cols } : Table)) =
        Prod.snd := rfl
    rw [hcomp]
    exact List.map_snd_zip _ _ (le_of_eq (hvlen.symm ▸ rfl))
  · intro tb htb
    obtain ⟨pq, hpq, htb2⟩ := List.mem_map.mp htb
    obtain ⟨hv, _⟩ := List.mem_zip hpq
    rw [← htb2]
    exact ⟨takeDropChunks_const_len m ils.length flatRows hrows pq.1 hv, rfl⟩

/-- A key that occurs in the key sequence is found by `lookupA`. -/
theorem lookupA_exists {κ α : Type} [DecidableEq κ] {k : κ} :
    ∀ {l : List (κ × α)}, k ∈ l.map Prod.fst → ∃ v, lookupA k l = some v := by
  intro l
  induction l with
  | nil => intro h; simp at h
  | cons p rest ih =>
    obtain ⟨pk, pv⟩ := p
    intro h
    by_cases hk : pk = k
    · subst hk
      exact ⟨pv, by simp [lookupA]⟩
    · simp only [List.map_cons, List.mem_cons] at h
      rcases h with h | h
      · exact absurd h.symm hk
      · obtain ⟨v, hv⟩ := ih h
        exact ⟨v, by simp [lookupA, hk, hv]⟩

/-- `lookupA` commutes with mapping the stored values. -/
theorem lookupA_map_val {κ α β : Type} [DecidableEq κ] (k : κ) (f : α → β) :
    ∀ l : List (κ × α),
      lookupA k (l.map (fun q => (q.1, f q.2))) = (lookupA k l).map f := by
  intro l
  induction l with
  | nil => rfl
  | cons p rest ih =>
    obtain ⟨pk, pv⟩ := p
    by_cases hk : pk = k
    · simp [lookupA, hk]
    · simp [lookupA, hk, ih]

/-- One investigation's path through scatter, reshape and strip: the final
keys are a permutation of the input keys, and every tabular attribute ends
as one sub-table per context with the reference row count, its own row
labels and the shared column labels. -/
theorem per_inv_shape (inv : Investigation) (exact : Bool) (lvl : ℚ)
    (ist sci : List (String × CSResult)) (rsi : List (String × Entry))
    (hok : inv_ok exact lvl inv)
    (hnd : (inv.contexts.map Prod.fst).Nodup)
    (hpass : (sortedContexts inv).mapM (fun p =>
      (compute_stats p.2 exact lvl).map (fun r => (p.1, r))) = some ist)
    (hscat_keys : sci.map Prod.fst = ist.map Prod.fst)
    (hscat_look : ∀ k r2, lookupA k sci = some r2 →
      ∃ r, lookupA k ist = some r ∧ r2.index = r.index ∧ r2.cols = r.cols ∧
        r2.stats.length = r.stats.length)
    (hresh : reshape_groups inv.contexts
      (sci.map (fun q => (q.1, Entry.cs q.2))) = some rsi) :
    ((rsi.map (fun q => (q.1, strip_entry q.2))).map Prod.fst).Perm
      (inv.contexts.map Prod.fst) ∧
    ∀ s ctxts, (s, ctxts) ∈ inv.contexts →
      ∀ tref, rep_ref ctxts = some tref →
        ∃ (ts tcs : List Table),
          (s, FinalEntry.tables ts) ∈
            rsi.map (fun q => (q.1, strip_entry q.2)) ∧
          ctxts.map (fun c => c.metric.compute c.data lvl exact) =
            tcs.map Stats.table ∧
          ts.length = ctxts.length ∧
          ts.map Table.index = tcs.map Table.index ∧
          ∀ tb ∈ ts, tb.values.length = tref.values.length ∧
            tb.cols = ((tcs.head?.map Table.cols).getD []) := by
  have hperm : List.Perm (sortedContexts inv) inv.contexts :=
    List.perm_insertionSort _ _
  have hpassrel := mapM_inv hpass
  have hist_keys : ist.map Prod.fst = (sortedContexts inv).map Prod.fst := by
    refine forall₂_map_eq (hpassrel.imp ?_)
    intro p e he
    rw [Option.map_eq_some'] at he
    obtain ⟨r, _, he2⟩ := he
    rw [← he2]
  have hsort_keys_perm : List.Perm ((sortedContexts inv).map Prod.fst)
      (inv.contexts.map Prod.fst) := hperm.map Prod.fst
  have hist_nd : (ist.map Prod.fst).Nodup := by
    rw [hist_keys]
    exact hsort_keys_perm.nodup_iff.mpr hnd
  have hcs_keys : (sci.map (fun q => (q.1, Entry.cs q.2))).map Prod.fst =
      sci.map Prod.fst := by
    rw [List.map_map]
    rfl
  have hcs_nd : ((sci.map (fun q => (q.1, Entry.cs q.2))).map Prod.fst).Nodup := by
    rw [hcs_keys, hscat_keys, hist_keys]
    exact hsort_keys_perm.nodup_iff.mpr hnd
  obtain ⟨hrkeys, _, hrent⟩ := reshape_groups_rel inv.contexts
    (sci.map (fun q => (q.1, Entry.cs q.2))) rsi hnd hresh
  have hout_keys : (rsi.map (fun q => (q.1, strip_entry q.2))).map Prod.fst =
      rsi.map Prod.fst := by
    rw [List.map_map]
    rfl
  constructor
  · rw [hout_keys, hrkeys, hcs_keys, hscat_keys, hist_keys]
    exact hsort_keys_perm
  · intro s ctxts hmem tref htref
    have hokp := hok (s, ctxts) hmem
    have hne : ctxts ≠ [] := hokp.1
    obtain ⟨tcs, hmap, htcs_len, hall, hcs⟩ :=
      compute_stats_tab (s, ctxts) exact lvl tref htref hne hokp.2
    have hmem_sorted : (s, ctxts) ∈ sortedContexts inv :=
      hperm.mem_iff.mpr hmem
    obtain ⟨e, hein, hFe⟩ := forall₂_mem_left hpassrel (s, ctxts) hmem_sorted
    rw [Option.map_eq_some'] at hFe
    obtain ⟨r1, hr1, he2⟩ := hFe
    rw [hcs] at hr1
    cases hr1
    have hlook_ist : lookupA s ist =
        some ⟨(tcs.map Table.values).flatten, (tcs.map Table.index).flatten,
          ((tcs.head?.map Table.cols).getD [])⟩ := by
      refine mem_lookupA hist_nd ?_
      subst he2
      exact hein
    have hs_in_sci : s ∈ sci.map Prod.fst := by
      rw [hscat_keys]
      exact List.mem_map_of_mem Prod.fst (lookupA_mem hlook_ist)
    obtain ⟨r2, hr2⟩ := lookupA_exists hs_in_sci
    obtain ⟨r3, hr3, hidx2, hcols2, hslen2⟩ := hscat_look s r2 hr2
    rw [hlook_ist] at hr3
    cases hr3
    obtain ⟨c0, crest, hctx_eq⟩ := List.exists_cons_of_ne_nil hne
    have hc0 : ctxts.head? = some c0 := by rw [hctx_eq]; rfl
    have hc0s : c0.metric.stats = some tref := by
      rw [← htref, hctx_eq]
      rfl
    obtain ⟨hper_tab, _⟩ := hrent (s, ctxts) hmem c0 hc0
    obtain ⟨rC, ts, hrC, hts, hm0, hsplit⟩ := hper_tab tref hc0s
    have hrCr2 : rC = r2 := by
      rw [lookupA_map_val s Entry.cs sci, hr2] at hrC
      simp only [Option.map_some', Option.some_inj] at hrC
      cases hrC
      rfl
    subst hrCr2
    have hm : tref.values.length ≠ 0 := hm0
    have hctxts_len : ctxts.length ≠ 0 := by
      rw [hctx_eq]
      simp
    have hils_len : (tcs.map Table.index).length ≠ 0 := by
      rw [List.length_map, htcs_len]
      exact hctxts_len
    have hils : ∀ l ∈ tcs.map Table.index, l.length = tref.values.length := by
      intro l hl
      obtain ⟨tc, htc, hlv⟩ := List.mem_map.mp hl
      rw [← hlv, (hall tc htc).2.1, (hall tc htc).1]
    have hrows_len : rC.stats.length =
        (tcs.map Table.index).length * tref.values.length := by
      rw [hslen2, List.length_map]
      show (tcs.map Table.values).flatten.length = _
      rw [flatten_len_const tref.values.length (tcs.map Table.values) ?_,
        List.length_map]
      intro l hl
      obtain ⟨tc, htc, hlv⟩ := List.mem_map.mp hl
      rw [← hlv, (hall tc htc).1]
    obtain ⟨ts2, hsplit2, hts2_len, hts2_idx, hts2_all⟩ :=
      array_split_table_spec rC.stats (tcs.map Table.index) rC.cols
        tref.values.length hm hils_len hrows_len hils
    have htbl_eq : (⟨rC.stats, rC.index, rC.cols⟩ : Table) =
        ⟨rC.stats, (tcs.map Table.index).flatten, rC.cols⟩ := by
      rw [hidx2]
    have hts_eq : ts = ts2 := by
      rw [htbl_eq] at hsplit
      rw [hsplit] at hsplit2
      exact Option.some_inj.mp hsplit2
    subst hts_eq
    refine ⟨ts, tcs, ?_, hmap, ?_, hts2_idx, ?_⟩
    · have : (s, Entry.reshaped ts) ∈ rsi := lookupA_mem hts
      have h2 := List.mem_map_of_mem (fun q => (q.1, strip_entry q.2)) this
      simpa [strip_entry] using h2
    · rw [hts2_len, List.length_map, htcs_len]
    · intro tb htb
      refine ⟨(hts2_all tb htb).1, ?_⟩
      rw [(hts2_all tb htb).2, hcols2]

/-- Claim C6: per investigation, the output of `compute_all_stats` carries
exactly the input's protected-attribute keys (as a permutation of the
input's), and every tabular attribute's corrected flat table comes back
split into one sub-table per input context, each with the reference
table's row count, the original per-context row labels, and the shared
column labels. -/
theorem compute_all_stats_shape (invs : List Investigation) (exact : Bool)
    (level : ℚ) (t : ℕ) (out : List (List (String × FinalEntry)))
    (hT : total_hypotheses invs = some t)
    (hok : ∀ inv ∈ invs, inv_ok exact (adj_level level t) inv)
    (hkeys : ∀ inv ∈ invs, (inv.contexts.map Prod.fst).Nodup)
    (hrun : compute_all_stats invs exact level = some out) :
    List.Forall₂ (fun inv outInv =>
      (outInv.map Prod.fst).Perm (inv.contexts.map Prod.fst) ∧
      ∀ s ctxts, (s, ctxts) ∈ inv.contexts →
        ∀ tref, rep_ref ctxts = some tref →
          ∃ (ts tcs : List Table),
            (s, FinalEntry.tables ts) ∈ outInv ∧
            ctxts.map (fun c =>
              c.metric.compute c.data (adj_level level t) exact) =
              tcs.map Stats.table ∧
            ts.length = ctxts.length ∧
            ts.map Table.index = tcs.map Table.index ∧
            ∀ tb ∈ ts, tb.values.length = tref.values.length ∧
              tb.cols = ((tcs.head?.map Table.cols).getD []))
      invs out := by
  unfold compute_all_stats at hrun
  rw [hT] at hrun
  dsimp only at hrun
  by_cases ht0 : t = 0
  · rw [if_pos ht0] at hrun
    simp at hrun
  rw [if_neg ht0] at hrun
  unfold correction_pipeline at hrun
  cases hpass : all_stats_pass invs exact (adj_level level t) with
  | none => rw [hpass] at hrun; simp at hrun
  | some st =>
  rw [hpass] at hrun
  dsimp only at hrun
  cases hflat : flatten_pvals st with
  | none => rw [hflat] at hrun; simp at hrun
  | some ps =>
  rw [hflat] at hrun
  dsimp only at hrun
  cases hscat : scatter_invs (holm_corrected ps) (invs.zip st) 0 with
  | none => rw [hscat] at hrun; simp at hrun
  | some sc =>
  rw [hscat] at hrun
  dsimp only at hrun
  cases hresh : (invs.zip sc).mapM (fun p =>
      reshape_groups p.1.contexts
        (p.2.map (fun q => (q.1, Entry.cs q.2)))) with
  | none => rw [hresh] at hrun; simp at hrun
  | some rs =>
  rw [hresh] at hrun
  simp only [Option.some_inj] at hrun
  subst hrun
  unfold all_stats_pass at hpass
  have hpassrel := mapM_inv hpass
  have hscrel := scatter_invs_rel (holm_corrected ps) (invs.zip st) 0 sc hscat
  have hrrel := mapM_inv hresh
  have hstlen : st.length = invs.length := hpassrel.length_eq.symm
  have hzip1len : (invs.zip st).length = invs.length := by
    rw [List.length_zip, hstlen, min_self]
  have hsclen : sc.length = invs.length := by
    rw [← hscrel.length_eq, hzip1len]
  have hzip2len : (invs.zip sc).length = invs.length := by
    rw [List.length_zip, hsclen, min_self]
  have hrslen : rs.length = invs.length := by
    rw [← hrrel.length_eq, hzip2len]
  refine List.forall₂_iff_get.mpr ⟨?_, ?_⟩
  · rw [List.length_map, hrslen]
  · intro i h1 h2
    have hi : i < invs.length := h1
    have hist : i < st.length := by rw [hstlen]; exact hi
    have hisc : i < sc.length := by rw [hsclen]; exact hi
    have hirs : i < rs.length := by rw [hrslen]; exact hi
    have hiz1 : i < (invs.zip st).length := by rw [hzip1len]; exact hi
    have hiz2 : i < (invs.zip sc).length := by rw [hzip2len]; exact hi
    have hp_i := (List.forall₂_iff_get.mp hpassrel).2 i hi hist
    have hs_i := (List.forall₂_iff_get.mp hscrel).2 i hiz1 hisc
    have hr_i := (List.forall₂_iff_get.mp hrrel).2 i hiz2 hirs
    simp only [List.get_eq_getElem, List.getElem_zip] at hp_i hs_i hr_i
    have hmem_inv : invs[i] ∈ invs := List.getElem_mem hi
    have hmain := per_inv_shape invs[i] exact (adj_level level t)
      st[i] sc[i] rs[i] (hok _ hmem_inv) (hkeys _ hmem_inv)
      hp_i hs_i.1 hs_i.2 hr_i
    simp only [List.get_eq_getElem, List.getElem_map]
    exact hmain

/-- Witness for C6: the spec's tabular scenario end to end — one
investigation, one attribute `"t"`, two contexts, two-row reference table;
the output holds two sub-tables of two rows each, with the original labels
and columns. -/
theorem compute_all_stats_shape_w :
    total_hypotheses [invTab] = some 4 ∧
      (∀ inv ∈ [invTab], inv_ok true (adj_level (19/20) 4) inv) ∧
      (∀ inv ∈ [invTab], (inv.contexts.map Prod.fst).Nodup) ∧
      compute_all_stats [invTab] true (19/20) =
        some [[("t", FinalEntry.tables
          [⟨[[1, 2/25], [2, 2/25]], ["r1", "r2"], ["effect", "pval"]⟩,
            ⟨[[3, 2/25], [4, 2/25]], ["r1", "r2"], ["effect", "pval"]⟩])]] ∧
      List.Forall₂ (fun inv outInv =>
        (outInv.map Prod.fst).Perm (inv.contexts.map Prod.fst) ∧
        ∀ s ctxts, (s, ctxts) ∈ inv.contexts →
          ∀ tref, rep_ref ctxts = some tref →
            ∃ (ts tcs : List Table),
              (s, FinalEntry.tables ts) ∈ outInv ∧
              ctxts.map (fun c =>
                c.metric.compute c.data (adj_level (19/20) 4) true) =
                tcs.map Stats.table ∧
              ts.length = ctxts.length ∧
              ts.map Table.index = tcs.map Table.index ∧
              ∀ tb ∈ ts, tb.values.length = tref.values.length ∧
                tb.cols = ((tcs.head?.map Table.cols).getD []))
        [invTab]
        [[("t", FinalEntry.tables
          [⟨[[1, 2/25], [2, 2/25]], ["r1", "r2"], ["effect", "pval"]⟩,
            ⟨[[3, 2/25], [4, 2/25]], ["r1", "r2"], ["effect", "pval"]⟩])]] := by
  have hok : ∀ inv ∈ [invTab], inv_ok true (adj_level (19/20) 4) inv := by
    intro inv hinv
    rw [List.mem_singleton] at hinv
    subst hinv
    intro p hp
    simp only [invTab, List.mem_singleton] at hp
    subst hp
    refine ⟨by simp [ctxsTab], ?_⟩
    intro c hc
    simp only [ctxsTab, List.mem_cons, List.mem_singleton,
      List.not_mem_nil, or_false] at hc
    rcases hc with rfl | rfl <;>
      simp [ctx_result_ok, rep_ref, ctxsTab, tabMetric, tabT, refT]
  have hrun : compute_all_stats [invTab] true (19/20) =
      some [[("t", FinalEntry.tables
        [⟨[[1, 2/25], [2, 2/25]], ["r1", "r2"], ["effect", "pval"]⟩,
          ⟨[[3, 2/25], [4, 2/25]], ["r1", "r2"], ["effect", "pval"]⟩])]] := by
    decide
  exact ⟨by decide, hok, by decide, hrun,
    compute_all_stats_shape [invTab] true (19/20) 4 _ (by decide) hok
      (by decide) hrun⟩

end FT
